import Mathlib

/-!
Shallow embedding of the generative-music engine:

* Consensus Engine (`src/server/consensus.js`): weighted audience-input
  aggregation with temporal decay, consensus proximity, smoothing and
  performer overrides.  JavaScript numbers are modelled as real numbers
  (`ℝ`), since the weighting uses `Math.exp`.
* Generator (`src/server/generator.js`): scales, the mulberry32 seeded
  PRNG, sequence generation and recursive self-similar expansion.  MIDI
  notes are modelled as integers.
* Scheduler (`src/server/scheduler.js`): BPM-locked scheduling with
  subdivision arithmetic and quantization, over exact rationals (`ℚ`).
* OSC Bridge (`src/server/osc-bridge.js`): message formatting and the
  connection lifecycle state machine.

State-mutating methods become functions from the owning structure to an
updated structure; methods that `throw` return `Except`; JavaScript `null`
and `undefined` arguments are modelled with `Option` or dedicated
inductives where the distinction matters.
-/

namespace GenMusic

/-! ## Consensus Engine (consensus.js) -/

/-- A JavaScript value passed as the `values` argument of `recordInput`.
Only the shapes that matter to the engine are modelled: `null`, `undefined`,
a number, a string, or a plain object mapping parameter names to numbers. -/
inductive JVal where
  | jnull
  | jundef
  | jnum (x : ℝ)
  | jstr (s : String)
  | jobj (entries : List (String × ℝ))

/-- JavaScript `typeof v === 'object'`.  Note that `typeof null` is
`'object'` in JavaScript, so `jnull` satisfies this test. -/
def typeofIsObject : JVal → Bool
  | .jnull => true
  | .jobj _ => true
  | _ => false

/-- True exactly for a plain object (a genuine mapping of parameter names
to numbers). -/
def JVal.isMapping : JVal → Bool
  | .jobj _ => true
  | _ => false

/-- Reading property `p` of a stored `values`: `jobj` looks the key up
(absent keys read as `undefined`, i.e. `none`); property access on a
primitive yields `undefined`; on `null`/`undefined` it throws. -/
def propAt : JVal → String → Option ℝ
  | .jobj m, p => m.lookup p
  | _, _ => none

/-- The value an audience member's `overrides[param]` slot holds:
`undef` when the key is absent, `null` after an explicit clear, or a
number while an override is set. -/
inductive OvVal where
  | undef
  | null
  | val (x : ℝ)

/-- JavaScript `v === null` for an override slot. -/
def OvVal.isNull : OvVal → Bool
  | .null => true
  | _ => false

/-- One entry of the engine's per-participant input table. -/
structure InputEntry where
  timestamp : ℝ
  values : JVal

/-- The `ConsensusEngine` instance state together with its configuration
(`DEFAULT_CONFIG` keys, overridable at construction).  The input table is
an association list keyed by participant id, in `Map` insertion order. -/
structure ConsensusEngine where
  inputDecayWindowMs : ℝ
  consensusSmoothing : ℝ
  betaTemporal : ℝ
  gammaConsensus : ℝ
  parameters : List String
  inputs : List (String × InputEntry)
  state : String → ℝ
  overridesActive : Bool
  overrides : String → OvVal

/-- The default parameter list of `DEFAULT_CONFIG.PARAMETERS`. -/
def defaultParameters : List String := ["mood", "tempo", "intensity", "density"]

/-- `new ConsensusEngine()` with the default configuration: every
parameter's state starts at 0.5, every parameter's override slot at
`null`, with the override set inactive. -/
noncomputable def defaultEngine : ConsensusEngine where
  inputDecayWindowMs := 5000
  consensusSmoothing := 0.15
  betaTemporal := 0.6
  gammaConsensus := 0.4
  parameters := defaultParameters
  inputs := []
  state := fun _ => 0.5
  overridesActive := false
  overrides := fun p => if p ∈ defaultParameters then OvVal.null else OvVal.undef

/-- `Map.prototype.set`: overwrite in place when the key is present
(keeping its insertion position), append otherwise. -/
def setInput (inputs : List (String × InputEntry)) (userId : String)
    (entry : InputEntry) : List (String × InputEntry) :=
  if inputs.any fun pr => pr.1 = userId then
    inputs.map fun pr => if pr.1 = userId then (userId, entry) else pr
  else inputs ++ [(userId, entry)]

/-- `timestamp || Date.now()`: a missing or zero (falsy) timestamp falls
back to the current time. -/
noncomputable def tsOrNow (timestamp : Option ℝ) (now : ℝ) : ℝ :=
  match timestamp with
  | some t => if t = 0 then now else t
  | none => now

/-- `recordInput(userId, values, timestamp)`.  The guard is the source's
`if (!userId || typeof values !== 'object') return;` — a falsy (empty)
participant id or a `values` whose `typeof` is not `'object'` leaves the
engine untouched. -/
noncomputable def recordInput (e : ConsensusEngine) (userId : String) (values : JVal)
    (timestamp : Option ℝ) (now : ℝ) : ConsensusEngine :=
  if userId = "" ∨ typeofIsObject values = false then e
  else { e with inputs := setInput e.inputs userId ⟨tsOrNow timestamp now, values⟩ }

/-- `removeInput(userId)`. -/
def removeInput (e : ConsensusEngine) (userId : String) : ConsensusEngine :=
  { e with inputs := e.inputs.filter fun pr => pr.1 ≠ userId }

/-- The inner loop of `calculateConsensus` for one parameter: walk the
input list accumulating `(weightedSum, totalWeight)`.  Accessing
`input.values[param]` on a `null`/`undefined` `values` throws, modelled
as `Except.error`.  An input that does not define the parameter, or whose
age exceeds the decay window, is skipped. -/
noncomputable def paramAccum (e : ConsensusEngine) (now : ℝ) (param : String) :
    List InputEntry → ℝ × ℝ → Except Unit (ℝ × ℝ)
  | [], acc => .ok acc
  | input :: rest, acc =>
    match input.values with
    | JVal.jnull => .error ()
    | JVal.jundef => .error ()
    | JVal.jnum _ => paramAccum e now param rest acc
    | JVal.jstr _ => paramAccum e now param rest acc
    | JVal.jobj m =>
      match m.lookup param with
      | none => paramAccum e now param rest acc
      | some inputValue =>
        if now - input.timestamp > e.inputDecayWindowMs then
          paramAccum e now param rest acc
        else
          let temporalWeight :=
            Real.exp (-(now - input.timestamp) / e.inputDecayWindowMs * e.betaTemporal)
          let consensusWeight := 1 - |inputValue - e.state param| * e.gammaConsensus
          let finalWeight := temporalWeight * max 0.1 consensusWeight
          paramAccum e now param rest
            (acc.1 + inputValue * finalWeight, acc.2 + finalWeight)

/-- The outer loop of `calculateConsensus`: per recognized parameter,
append `(param, weightedSum / totalWeight)` to the result when
`totalWeight > 0`. -/
noncomputable def consensusLoop (e : ConsensusEngine) (now : ℝ) :
    List String → List (String × ℝ) → Except Unit (List (String × ℝ))
  | [], acc => .ok acc
  | param :: rest, acc =>
    match paramAccum e now param (e.inputs.map Prod.snd) (0, 0) with
    | .error u => .error u
    | .ok (weightedSum, totalWeight) =>
      if totalWeight > 0 then
        consensusLoop e now rest (acc ++ [(param, weightedSum / totalWeight)])
      else
        consensusLoop e now rest acc

/-- `calculateConsensus(now)`: `null` (`none`) when the input table is
empty or no parameter accumulated positive weight; otherwise the partial
mapping of consensus values. -/
noncomputable def calculateConsensus (e : ConsensusEngine) (now : ℝ) :
    Except Unit (Option (List (String × ℝ))) :=
  if e.inputs.length = 0 then .ok none
  else
    match consensusLoop e now e.parameters [] with
    | .error u => .error u
    | .ok result => .ok (if result = [] then none else some result)

/-- The state assignment of `applyConsensus`:
`state[param] = current + (value - current) * smoothing`. -/
noncomputable def stateUpdate (e : ConsensusEngine) (param : String) (value : ℝ) :
    ConsensusEngine :=
  { e with
    state := fun q =>
      if q = param then
        e.state param + (value - e.state param) * e.consensusSmoothing
      else e.state q }

/-- The body of `applyConsensus` over the entries of a non-null consensus
object: skip a parameter when the override set is active and that
parameter's override slot is not `null`; otherwise move the state by the
smoothing fraction of the distance to the consensus value. -/
noncomputable def applyLoop : ConsensusEngine → List (String × ℝ) → ConsensusEngine
  | e, [] => e
  | e, (param, value) :: rest =>
    if e.overridesActive = true ∧ (e.overrides param).isNull = false then
      applyLoop e rest
    else
      applyLoop (stateUpdate e param value) rest

/-- `applyConsensus(consensus)`: a no-op on `null`.  The returned snapshot
is the updated engine's `state`. -/
noncomputable def applyConsensus (e : ConsensusEngine)
    (consensus : Option (List (String × ℝ))) : ConsensusEngine :=
  match consensus with
  | none => e
  | some entries => applyLoop e entries

/-- `setOverride(param, value)`: ignored for an unrecognized parameter;
a non-null value is written into the override slot and directly into the
state, and marks the override set active; `null` clears the slot only. -/
noncomputable def setOverride (e : ConsensusEngine) (param : String)
    (value : Option ℝ) : ConsensusEngine :=
  if param ∈ e.parameters then
    let e1 :=
      { e with
        overrides := fun q =>
          if q = param then
            match value with
            | some v => OvVal.val v
            | none => OvVal.null
          else e.overrides q }
    match value with
    | some v =>
      { e1 with
        overridesActive := true
        state := fun q => if q = param then v else e1.state q }
    | none => e1
  else e

/-- `clearOverrides()`. -/
def clearOverrides (e : ConsensusEngine) : ConsensusEngine :=
  { e with
    overridesActive := false
    overrides := fun q => if q ∈ e.parameters then OvVal.null else e.overrides q }

/-- `pruneOldInputs(now)`: drop inputs older than twice the decay window
(the count returned by the source is the number dropped). -/
noncomputable def pruneOldInputs (e : ConsensusEngine) (now : ℝ) :
    ConsensusEngine × ℕ :=
  let kept := e.inputs.filter fun pr =>
    ¬ (now - pr.2.timestamp > e.inputDecayWindowMs * 2)
  ({ e with inputs := kept }, e.inputs.length - kept.length)

/-- `getInputCount()`. -/
def getInputCount (e : ConsensusEngine) : ℕ := e.inputs.length

/-! ## Generator (generator.js) -/

/-- The scale interval table `SCALES`. -/
def SCALES : List (String × List ℤ) :=
  [("pentatonic", [0, 2, 4, 7, 9]),
   ("minor_pentatonic", [0, 3, 5, 7, 10]),
   ("chromatic", [0, 1, 2, 3, 4, 5, 6, 7, 8, 9, 10, 11]),
   ("whole_tone", [0, 2, 4, 6, 8, 10]),
   ("major", [0, 2, 4, 5, 7, 9, 11]),
   ("minor", [0, 2, 3, 5, 7, 8, 10]),
   ("dorian", [0, 2, 3, 5, 7, 9, 10]),
   ("mixolydian", [0, 2, 4, 5, 7, 9, 10]),
   ("blues", [0, 3, 5, 6, 7, 10]),
   ("harmonic_minor", [0, 2, 3, 5, 7, 8, 11])]

/-- `getScale(scaleName)`: the interval list, or a thrown error for an
unknown name. -/
def getScale (scaleName : String) : Except String (List ℤ) :=
  match SCALES.lookup scaleName with
  | none => .error "Unknown scale"
  | some intervals => .ok intervals

/-- `seed | 0` — JavaScript `ToInt32`, taken here as the residue modulo
2^32 (all further state updates are 32-bit, so the unsigned residue is a
faithful representation of the two's-complement word). -/
def toUint32 (n : ℤ) : ℕ := (n % (4294967296 : ℤ)).toNat

/-- `Math.imul`: 32-bit integer multiplication (the low 32 bits of the
product). -/
def imul (a b : ℕ) : ℕ := (a * b) % 4294967296

/-- One call of the mulberry32 closure built by `seededRandom`: the new
32-bit state and the 32-bit output word (the returned float is that word
divided by 2^32). -/
def mulberryNext (s0 : ℕ) : ℕ × ℕ :=
  let s := (s0 + 0x6d2b79f5) % 4294967296
  let t1 := imul (s ^^^ (s >>> 15)) (1 ||| s)
  let t2 := ((t1 + imul (t1 ^^^ (t1 >>> 7)) (61 ||| t1)) % 4294967296) ^^^ t1
  (s, t2 ^^^ (t2 >>> 14))

/-- The internal state of `seededRandom(seed)` after `n` calls of the
returned generator. -/
def mulberryState (seed : ℤ) : ℕ → ℕ
  | 0 => toUint32 seed
  | n + 1 => (mulberryNext (mulberryState seed n)).1

/-- The value produced by the `n`-th call (0-indexed) of the generator
returned by `seededRandom(seed)`: a rational in `[0, 1)`. -/
def seededRandomValue (seed : ℤ) (n : ℕ) : ℚ :=
  ((mulberryNext (mulberryState seed n)).2 : ℚ) / 4294967296

/-- `clampMidi(note)` for the integer-valued notes the generator works
with (`Math.round` is the identity on integers): clamp into `[0, 127]`. -/
def clampMidi (note : ℤ) : ℤ := max 0 (min 127 note)

/-- `generateSequence(length, scaleName, seed, rootNote, octaveRange)`:
build the note pool across the octave range, keeping only notes inside
the MIDI range, then draw `length` notes by indexing the pool with
`floor(rand() * poolSize)`. -/
def generateSequence (length : ℕ) (scaleName : String) (seed : ℤ)
    (rootNote : ℤ) (octaveRange : ℕ) : Except String (List ℤ) :=
  if length < 1 ∨ length > 256 then .error "Length must be 1-256"
  else
    match getScale scaleName with
    | .error msg => .error msg
    | .ok intervals =>
      let notePool := (List.range octaveRange).flatMap fun octave =>
        intervals.filterMap fun interval =>
          let note := rootNote + (octave : ℤ) * 12 + interval
          if 0 ≤ note ∧ note ≤ 127 then some note else none
      if notePool.length = 0 then .error "No valid MIDI notes in range"
      else
        .ok ((List.range length).map fun i =>
          notePool.getD
            (Int.toNat ⌊seededRandomValue seed i * (notePool.length : ℚ)⌋) 0)

/-- One pass of `applyRecursion`: every note at position `i` becomes the
motif `[note, midNote, note]`, where `midNote` is the clamped midpoint
toward the (wrapping) next note of the current pass. -/
def expandPass (current : List ℤ) : List ℤ :=
  (List.range current.length).flatMap fun i =>
    let note := current.getD i 0
    let next := current.getD ((i + 1) % current.length) 0
    let interval := next - note
    let midNote := clampMidi (note + Int.fdiv interval 2)
    [note, midNote, note]

/-- `applyRecursion(sequence, depth)`: `depth` iterated expansion passes
(depth 0 returns the sequence unchanged). -/
def applyRecursion (sequence : List ℤ) : ℕ → List ℤ
  | 0 => sequence
  | d + 1 => applyRecursion (expandPass sequence) d

/-- `transpose(sequence, semitones)`: element-wise add then clamp. -/
def transpose (sequence : List ℤ) (semitones : ℤ) : List ℤ :=
  sequence.map fun note => clampMidi (note + semitones)

/-! ## Scheduler (scheduler.js)

Times and durations are exact rationals; JavaScript floating point is
idealized as exact arithmetic. -/

/-- The `SUBDIVISIONS` multiplier table. -/
def SUBDIVISIONS : List (String × ℚ) :=
  [("whole", 4), ("half", 2), ("quarter", 1), ("eighth", 1/2),
   ("sixteenth", 1/4), ("triplet_quarter", 2/3), ("triplet_eighth", 1/3),
   ("dotted_quarter", 3/2), ("dotted_eighth", 3/4)]

/-- A `ScheduledEvent`. -/
structure SchedEvent where
  note : ℚ
  time : ℚ
  duration : ℚ
  velocity : ℚ
deriving DecidableEq

/-- The `Scheduler` instance state. -/
structure Scheduler where
  bpm : ℚ
  beatDurationMs : ℚ
  scheduledNotes : List SchedEvent
  nextBeatIndex : ℕ

/-- `new Scheduler()` with the default 120 BPM. -/
def initScheduler : Scheduler :=
  { bpm := 120, beatDurationMs := 500, scheduledNotes := [], nextBeatIndex := 0 }

/-- `setBPM(bpm)`: validated to `[20, 300]`; beat duration is
`(60 / bpm) * 1000` milliseconds. -/
def setBPM (s : Scheduler) (bpm : ℚ) : Except String Scheduler :=
  if bpm < 20 ∨ bpm > 300 then .error "BPM must be between 20 and 300"
  else .ok { s with bpm := bpm, beatDurationMs := 60 / bpm * 1000 }

/-- `getSubdivisionDuration(subdivision)`: beat duration times the table
multiplier; throws for an unknown name. -/
def getSubdivisionDuration (s : Scheduler) (subdivision : String) :
    Except String ℚ :=
  match SUBDIVISIONS.lookup subdivision with
  | none => .error "Unknown subdivision"
  | some multiplier => .ok (s.beatDurationMs * multiplier)

/-- Ordering of scheduled events by start time (the sort comparator
`(a, b) => a.time - b.time`). -/
def timeLE (a b : SchedEvent) : Prop := a.time ≤ b.time

instance : DecidableRel timeLE :=
  fun a b => inferInstanceAs (Decidable (a.time ≤ b.time))

instance : IsTotal SchedEvent timeLE := ⟨fun a b => le_total a.time b.time⟩

instance : IsTrans SchedEvent timeLE := ⟨fun _ _ _ h1 h2 => le_trans h1 h2⟩

/-- The schedule's re-sort after every insertion (stable, ascending by
`time`). -/
def sortByTime (l : List SchedEvent) : List SchedEvent := l.insertionSort timeLE

/-- `scheduleNote(note, time, duration, velocity)`: validates the note
range and non-negative time, then inserts and re-sorts.  `duration`
defaults to one beat and `velocity` to 100 when absent. -/
def scheduleNote (s : Scheduler) (note time : ℚ)
    (duration velocity : Option ℚ) : Except String (Scheduler × SchedEvent) :=
  if note < 0 ∨ note > 127 then .error "Invalid MIDI note"
  else if time < 0 then .error "Time must be a non-negative number"
  else
    let event : SchedEvent :=
      { note := note, time := time,
        duration := duration.getD s.beatDurationMs,
        velocity := velocity.getD 100 }
    .ok ({ s with scheduledNotes := sortByTime (s.scheduledNotes ++ [event]) },
      event)

/-- `scheduleAtBeat(note, beat, subdivision, velocity)`: places the note
at `(beat - 1) * beatDuration` with the subdivision's duration. -/
def scheduleAtBeat (s : Scheduler) (note beat : ℚ)
    (subdivision : Option String) (velocity : Option ℚ) :
    Except String (Scheduler × SchedEvent) :=
  let time := (beat - 1) * s.beatDurationMs
  match getSubdivisionDuration s (subdivision.getD "quarter") with
  | .error msg => .error msg
  | .ok duration => scheduleNote s note time (some duration) velocity

/-- JavaScript `Math.round`: nearest integer, ties toward positive
infinity. -/
def jsRound (x : ℚ) : ℤ := ⌊x + 1/2⌋

/-- `quantize(time, subdivision)`: snap to the nearest grid line of the
subdivision's duration. -/
def quantize (s : Scheduler) (time : ℚ) (subdivision : Option String) :
    Except String ℚ :=
  match getSubdivisionDuration s (subdivision.getD "quarter") with
  | .error msg => .error msg
  | .ok gridSize => .ok ((jsRound (time / gridSize) : ℚ) * gridSize)

/-- `quantizeAll(subdivision)`: rewrite every stored event's time through
`quantize`, then re-sort.  On an unknown subdivision the map throws
before the schedule is reassigned, so the scheduler is unchanged. -/
def quantizeAll (s : Scheduler) (subdivision : Option String) :
    Except String Scheduler :=
  match s.scheduledNotes.mapM
      (fun ev => (quantize s ev.time subdivision).map fun t =>
        { ev with time := t }) with
  | .error msg => .error msg
  | .ok notes => .ok { s with scheduledNotes := sortByTime notes }

/-- `getSchedule()` (returned copies are value-equal to the stored list). -/
def getSchedule (s : Scheduler) : List SchedEvent := s.scheduledNotes

/-- `getTotalDuration()`. -/
def getTotalDuration (s : Scheduler) : ℚ :=
  match s.scheduledNotes.getLast? with
  | none => 0
  | some last => last.time + last.duration

/-- `clear()`. -/
def clearScheduler (s : Scheduler) : Scheduler :=
  { s with scheduledNotes := [], nextBeatIndex := 0 }

/-- One public scheduling call, for reasoning about call sequences. -/
inductive SchedOp where
  | note (note time : ℚ) (duration velocity : Option ℚ)
  | atBeat (note beat : ℚ) (subdivision : Option String) (velocity : Option ℚ)
  | quantAll (subdivision : Option String)
  | clr

/-- Execute one call; a call that throws leaves the scheduler unchanged
(the source validates before mutating). -/
def schedStep (s : Scheduler) : SchedOp → Scheduler
  | .note n t d v =>
    match scheduleNote s n t d v with
    | .ok r => r.1
    | .error _ => s
  | .atBeat n b sub v =>
    match scheduleAtBeat s n b sub v with
    | .ok r => r.1
    | .error _ => s
  | .quantAll sub =>
    match quantizeAll s sub with
    | .ok r => r
    | .error _ => s
  | .clr => clearScheduler s

/-- Execute a sequence of scheduling calls. -/
def runSched (s : Scheduler) (ops : List SchedOp) : Scheduler :=
  ops.foldl schedStep s

/-! ## OSC Bridge (osc-bridge.js) -/

/-- A JavaScript value supported by `formatMessage`: a number, a string
or a boolean. -/
inductive OVal where
  | num (x : ℚ)
  | str (s : String)
  | bool (b : Bool)
deriving DecidableEq

/-- Whether `typeof value === 'number'`. -/
def OVal.isNum : OVal → Bool
  | .num _ => true
  | _ => false

/-- A formatted `ProtocolMessage`. -/
structure OSCMsg where
  address : String
  typeTag : String
  value : OVal
  timestamp : ℚ
deriving DecidableEq

/-- A `ProtocolBundle`. -/
structure OSCBundle where
  timetag : ℚ
  messages : List OSCMsg
deriving DecidableEq

/-- `formatMessage(address, value)`: the address must start with `/`;
whole numbers tag `i`, other numbers `f`, strings `s`, booleans `T`/`F`
with the value re-encoded as 1/0.  (`Number.isInteger(x)` for a rational
is `x.den = 1`.) -/
def formatMessage (address : String) (value : OVal) (now : ℚ) :
    Except String OSCMsg :=
  if ¬ address.startsWith "/" then .error "Invalid OSC address"
  else
    match value with
    | .num x =>
      .ok { address := address, typeTag := if x.den = 1 then "i" else "f",
            value := .num x, timestamp := now }
    | .str s =>
      .ok { address := address, typeTag := "s", value := .str s,
            timestamp := now }
    | .bool b =>
      .ok { address := address, typeTag := if b then "T" else "F",
            value := .num (if b then 1 else 0), timestamp := now }

/-- `prefix || '/omni'` (an empty string is falsy). -/
def orOmni (p : Option String) : String :=
  match p with
  | some s => if s = "" then "/omni" else s
  | none => "/omni"

/-- `formatBundle(state, prefix)`: format each numeric-valued entry as a
message addressed `prefix/param`, silently skipping non-numeric values. -/
def formatBundle (stateMap : List (String × OVal)) (prefixArg : Option String)
    (now : ℚ) : Except String OSCBundle :=
  let pfx := orOmni prefixArg
  match (stateMap.filter fun pr => pr.2.isNum).mapM
      (fun pr => formatMessage (pfx ++ "/" ++ pr.1) pr.2 now) with
  | .error msg => .error msg
  | .ok messages => .ok { timetag := now, messages := messages }

/-- The bridge lifecycle states. -/
inductive BridgeState where
  | DISCONNECTED
  | CONNECTING
  | CONNECTED
  | ERROR
deriving DecidableEq

/-- The `OSCBridge` instance state.  The `onSend` callback has no effect
on the instance state and is not modelled. -/
structure OSCBridge where
  host : String
  port : ℚ
  prefixStr : String
  state : BridgeState
  messageCount : ℕ
  lastError : Option String
  messageLog : List OSCMsg

/-- `new OSCBridge(options)` with falsy-default handling for host, port
and prefix. -/
def mkBridge (host : Option String) (port : Option ℚ)
    (prefixArg : Option String) : OSCBridge :=
  { host :=
      match host with
      | some h => if h = "" then "127.0.0.1" else h
      | none => "127.0.0.1"
    port :=
      match port with
      | some p => if p = 0 then 57120 else p
      | none => 57120
    prefixStr := orOmni prefixArg
    state := .DISCONNECTED
    messageCount := 0
    lastError := none
    messageLog := [] }

/-- `connect()`: a no-op returning `true` when already connected;
otherwise the transient `CONNECTING` state is followed, within the same
call, by `ERROR` (invalid host/port, returning `false`) or `CONNECTED`
(returning `true`). -/
def connect (b : OSCBridge) : OSCBridge × Bool :=
  if b.state = .CONNECTED then (b, true)
  else if b.host = "" ∨ b.port = 0 ∨ b.port < 1 ∨ b.port > 65535 then
    ({ b with state := .ERROR, lastError := some "Invalid target" }, false)
  else
    ({ b with state := .CONNECTED }, true)

/-- `disconnect()`: always transitions to `DISCONNECTED` and clears the
message log (the cumulative counter is kept). -/
def disconnect (b : OSCBridge) : OSCBridge :=
  { b with state := .DISCONNECTED, messageLog := [] }

/-- `send(param, value)`: `null` unless connected; otherwise format,
count, log and return the message. -/
def send (b : OSCBridge) (param : String) (value : OVal) (now : ℚ) :
    Except String (OSCBridge × Option OSCMsg) :=
  if b.state ≠ .CONNECTED then .ok (b, none)
  else
    match formatMessage (b.prefixStr ++ "/" ++ param) value now with
    | .error msg => .error msg
    | .ok m =>
      .ok
        ({ b with
            messageCount := b.messageCount + 1
            messageLog := b.messageLog ++ [m] },
          some m)

/-- `sendBundle(perfState)`: same gating as `send`, counting and logging
every message of the bundle. -/
def sendBundle (b : OSCBridge) (perfState : List (String × OVal)) (now : ℚ) :
    Except String (OSCBridge × Option OSCBundle) :=
  if b.state ≠ .CONNECTED then .ok (b, none)
  else
    match formatBundle perfState (some b.prefixStr) now with
    | .error msg => .error msg
    | .ok bundle =>
      .ok
        ({ b with
            messageCount := b.messageCount + bundle.messages.length
            messageLog := b.messageLog ++ bundle.messages },
          some bundle)

/-- `getRecentMessages(count)`: the last `count` (default 10) log
entries, oldest first. -/
def getRecentMessages (b : OSCBridge) (count : Option ℕ) : List OSCMsg :=
  let c := match count with
    | some c => if c = 0 then 10 else c
    | none => 10
  b.messageLog.drop (b.messageLog.length - c)

/-- One public bridge call, for reasoning about call sequences. -/
inductive BridgeOp where
  | connect
  | disconnect
  | send (param : String) (value : OVal) (now : ℚ)
  | sendBundle (perfState : List (String × OVal)) (now : ℚ)
  | getStatus
  | getRecent (count : Option ℕ)

/-- Execute one call; a call that throws leaves the bridge unchanged
(`formatMessage` throws before any mutation). -/
def bridgeStep (b : OSCBridge) : BridgeOp → OSCBridge
  | .connect => (connect b).1
  | .disconnect => disconnect b
  | .send param value now =>
    match send b param value now with
    | .ok r => r.1
    | .error _ => b
  | .sendBundle st now =>
    match sendBundle b st now with
    | .ok r => r.1
    | .error _ => b
  | .getStatus => b
  | .getRecent _ => b

/-- Execute a sequence of bridge calls. -/
def runBridge (b : OSCBridge) (ops : List BridgeOp) : OSCBridge :=
  ops.foldl bridgeStep b

/-! ## Spec-side definitions

The consensus weighting as the spec describes it, for comparison with
the loops translated from the source: the qualifying inputs of a
parameter (those that define it and are at most a decay window old),
each with its weight `exp(-(age/window)·β) · max(0.1, 1 - |v - state|·γ)`. -/

/-- The `(value, weight)` contributions of a parameter over an explicit
input list, per the spec's description of `calculateConsensus`. -/
noncomputable def specContribsL (e : ConsensusEngine) (now : ℝ) (p : String)
    (l : List InputEntry) : List (ℝ × ℝ) :=
  l.filterMap fun input =>
    match propAt input.values p with
    | none => none
    | some v =>
      if now - input.timestamp ≤ e.inputDecayWindowMs then
        some (v,
          Real.exp (-((now - input.timestamp) / e.inputDecayWindowMs)
              * e.betaTemporal)
            * max 0.1 (1 - |v - e.state p| * e.gammaConsensus))
      else none

/-- The qualifying contributions of parameter `p` on engine `e`. -/
noncomputable def specContribs (e : ConsensusEngine) (now : ℝ) (p : String) :
    List (ℝ × ℝ) :=
  specContribsL e now p (e.inputs.map Prod.snd)

/-- `Σ weight` over the qualifying inputs of `p`. -/
noncomputable def specTotalWeight (e : ConsensusEngine) (now : ℝ) (p : String) : ℝ :=
  ((specContribs e now p).map Prod.snd).sum

/-- `Σ (value · weight)` over the qualifying inputs of `p`. -/
noncomputable def specWeightedSum (e : ConsensusEngine) (now : ℝ) (p : String) : ℝ :=
  ((specContribs e now p).map fun c => c.1 * c.2).sum

/-- Every stored `values` is a genuine mapping (the state every engine
driven through well-formed `recordInput` payloads is in). -/
def wfInputs (e : ConsensusEngine) : Prop :=
  ∀ pr ∈ e.inputs, pr.2.values.isMapping = true

/-! ## Generator lemmas -/

theorem mulberryState_mod (seed : ℤ) (n : ℕ) :
    mulberryState (seed + 2 ^ 32) n = mulberryState seed n := by
  induction n with
  | zero =>
    show toUint32 (seed + 2 ^ 32) = toUint32 seed
    unfold toUint32
    congr 1
    omega
  | succ n ih =>
    show (mulberryNext (mulberryState (seed + 2 ^ 32) n)).1 = _
    rw [ih]
    rfl

/-- C10: `seededRandom` depends on its seed only through the low 32 bits:
the generators seeded with `s` and `s + 2^32` produce the same value at
every position. -/
theorem seededRandom_seed_mod_2_pow_32 (seed : ℤ) (n : ℕ) :
    seededRandomValue (seed + 2 ^ 32) n = seededRandomValue seed n := by
  unfold seededRandomValue
  rw [mulberryState_mod]

theorem sum_map_length_three {α : Type} (f : ℕ → List α)
    (h : ∀ i, (f i).length = 3) (n : ℕ) :
    (List.map (List.length ∘ f) (List.range n)).sum = 3 * n := by
  induction n with
  | zero => simp
  | succ n ih =>
    rw [List.range_succ, List.map_append, List.sum_append, ih]
    simp [Function.comp, h n]
    omega

theorem expandPass_length (current : List ℤ) :
    (expandPass current).length = 3 * current.length := by
  unfold expandPass
  rw [List.length_flatMap]
  apply sum_map_length_three
  intro i
  rfl

theorem clampMidi_bounds (note : ℤ) : 0 ≤ clampMidi note ∧ clampMidi note ≤ 127 := by
  unfold clampMidi
  constructor
  · exact le_max_left 0 _
  · exact max_le (by norm_num) (min_le_left 127 note)

theorem expandPass_mem_bounds (current : List ℤ)
    (h : ∀ n ∈ current, 0 ≤ n ∧ n ≤ 127) :
    ∀ n ∈ expandPass current, 0 ≤ n ∧ n ≤ 127 := by
  intro n hn
  unfold expandPass at hn
  rw [List.mem_flatMap] at hn
  obtain ⟨i, hi, hmem⟩ := hn
  rw [List.mem_range] at hi
  simp only [List.mem_cons, List.not_mem_nil, or_false] at hmem
  rcases hmem with h1 | h2 | h3
  · subst h1
    rw [List.getD_eq_getElem current 0 hi]
    exact h _ (List.getElem_mem hi)
  · subst h2
    exact clampMidi_bounds _
  · subst h3
    rw [List.getD_eq_getElem current 0 hi]
    exact h _ (List.getElem_mem hi)

theorem applyRecursion_length (sequence : List ℤ) (depth : ℕ) :
    (applyRecursion sequence depth).length = sequence.length * 3 ^ depth := by
  induction depth generalizing sequence with
  | zero => simp [applyRecursion]
  | succ d ih =>
    show (applyRecursion (expandPass sequence) d).length = _
    rw [ih, expandPass_length]
    ring

theorem applyRecursion_mem_bounds (sequence : List ℤ) (depth : ℕ)
    (h : ∀ n ∈ sequence, 0 ≤ n ∧ n ≤ 127) :
    ∀ n ∈ applyRecursion sequence depth, 0 ≤ n ∧ n ≤ 127 := by
  induction depth generalizing sequence with
  | zero => exact h
  | succ d ih => exact ih (expandPass sequence) (expandPass_mem_bounds sequence h)

/-- C5 (amended): `applyRecursion` is the identity at depth 0 and grows
the sequence by exactly `3^depth`; and, provided every input note lies in
the MIDI range `[0, 127]`, every output note also lies in `[0, 127]`. -/
theorem applyRecursion_growth_and_range (sequence : List ℤ) (depth : ℕ) :
    applyRecursion sequence 0 = sequence
    ∧ (applyRecursion sequence depth).length = sequence.length * 3 ^ depth
    ∧ ((∀ n ∈ sequence, 0 ≤ n ∧ n ≤ 127) →
        ∀ n ∈ applyRecursion sequence depth, 0 ≤ n ∧ n ≤ 127) :=
  ⟨rfl, applyRecursion_length sequence depth,
    fun h => applyRecursion_mem_bounds sequence depth h⟩

/-- C5 witness: a concrete in-range sequence at depth 1. -/
theorem applyRecursion_growth_and_range_witness :
    applyRecursion [60, 64, 67] 0 = [60, 64, 67]
    ∧ (applyRecursion [60, 64, 67] 1).length = [60, 64, 67].length * 3 ^ 1
    ∧ ∀ n ∈ applyRecursion [60, 64, 67] 1, 0 ≤ n ∧ n ≤ 127 := by
  obtain ⟨h0, _, h2⟩ := applyRecursion_growth_and_range [60, 64, 67] 1
  exact ⟨h0, (applyRecursion_growth_and_range [60, 64, 67] 1).2.1,
    h2 (by decide)⟩

/-- C5 counterexample: as stated over every sequence the claim fails —
an out-of-range input note is copied through unchanged (here already at
depth 0; the same happens at any depth, since every pass copies each
current note verbatim into its motif). -/
theorem applyRecursion_range_counterexample :
    ¬ (∀ (sequence : List ℤ) (depth : ℕ),
        (applyRecursion sequence depth).length = sequence.length * 3 ^ depth
        ∧ ∀ n ∈ applyRecursion sequence depth, 0 ≤ n ∧ n ≤ 127) := by
  intro h
  have h200 := (h [200] 0).2 200 (by decide)
  exact absurd h200.2 (by decide)

/-! ## Scheduler lemmas -/

theorem lookup_SUBDIVISIONS_pos (name : String) (m : ℚ)
    (h : SUBDIVISIONS.lookup name = some m) : 0 < m := by
  simp only [SUBDIVISIONS, List.lookup] at h
  repeat' split at h
  all_goals first
    | (injection h with h; subst h; norm_num)
    | exact absurd h (by simp)

theorem getSubdivisionDuration_ok_pos (s : Scheduler) (name : String) (g : ℚ)
    (hbd : 0 < s.beatDurationMs) (h : getSubdivisionDuration s name = .ok g) :
    0 < g := by
  unfold getSubdivisionDuration at h
  cases hsub : SUBDIVISIONS.lookup name with
  | none => rw [hsub] at h; exact absurd h (by simp)
  | some m =>
    rw [hsub] at h
    injection h with h
    subst h
    exact mul_pos hbd (lookup_SUBDIVISIONS_pos name m hsub)

theorem jsRound_int_cast (z : ℤ) : jsRound (z : ℚ) = z := by
  unfold jsRound
  rw [add_comm, Int.floor_add_int]
  norm_num

theorem jsRound_nonneg (x : ℚ) (hx : 0 ≤ x) : 0 ≤ jsRound x := by
  unfold jsRound
  rw [Int.le_floor]
  push_cast
  linarith

/-- C6: quantization is idempotent — quantizing an already-quantized time
returns it unchanged, for every valid subdivision on a scheduler with a
positive beat duration. -/
theorem quantize_idempotent (s : Scheduler) (t : ℚ) (subdivision : Option String)
    (q : ℚ) (hbd : 0 < s.beatDurationMs) (ht : 0 ≤ t)
    (hq : quantize s t subdivision = .ok q) :
    quantize s q subdivision = .ok q := by
  unfold quantize getSubdivisionDuration at hq ⊢
  cases hsub : SUBDIVISIONS.lookup (subdivision.getD "quarter") with
  | none => rw [hsub] at hq; exact absurd hq (by simp)
  | some m =>
    rw [hsub] at hq
    dsimp only at hq ⊢
    have hg : (0 : ℚ) < s.beatDurationMs * m :=
      mul_pos hbd (lookup_SUBDIVISIONS_pos _ m hsub)
    injection hq with hq
    subst hq
    congr 1
    rw [mul_div_cancel_right₀ _ hg.ne', jsRound_int_cast]

/-- C6 witness: at 120 BPM quantizing 230 ms to the quarter grid gives
0 ms, and re-quantizing 0 ms returns 0 ms. -/
theorem quantize_idempotent_witness :
    quantize initScheduler 0 none = .ok 0 := by
  have h230 : quantize initScheduler 230 none = .ok 0 := by
    simp [quantize, getSubdivisionDuration, SUBDIVISIONS, List.lookup,
      initScheduler, jsRound]
    norm_num
  exact quantize_idempotent initScheduler 230 none 0
    (by norm_num [initScheduler]) (by norm_num) h230

theorem sortByTime_sorted (l : List SchedEvent) :
    List.Sorted timeLE (sortByTime l) :=
  List.sorted_insertionSort timeLE l

theorem mem_sortByTime {ev : SchedEvent} {l : List SchedEvent} :
    ev ∈ sortByTime l ↔ ev ∈ l :=
  (List.perm_insertionSort timeLE l).mem_iff

theorem scheduleNote_ok (s : Scheduler) (note time : ℚ) (d v : Option ℚ)
    (r : Scheduler × SchedEvent) (h : scheduleNote s note time d v = .ok r) :
    r.1.scheduledNotes = sortByTime (s.scheduledNotes ++
      [{ note := note, time := time, duration := d.getD s.beatDurationMs,
         velocity := v.getD 100 }])
    ∧ r.1.beatDurationMs = s.beatDurationMs
    ∧ 0 ≤ note ∧ note ≤ 127 ∧ 0 ≤ time := by
  unfold scheduleNote at h
  split at h
  · exact absurd h (by simp)
  · split at h
    · exact absurd h (by simp)
    · rename_i hnote htime
      injection h with h
      subst h
      push_neg at hnote htime
      exact ⟨rfl, rfl, hnote.1, hnote.2, htime⟩

theorem scheduleAtBeat_ok (s : Scheduler) (note beat : ℚ)
    (subdivision : Option String) (v : Option ℚ) (r : Scheduler × SchedEvent)
    (h : scheduleAtBeat s note beat subdivision v = .ok r) :
    ∃ g, getSubdivisionDuration s (subdivision.getD "quarter") = .ok g
      ∧ scheduleNote s note ((beat - 1) * s.beatDurationMs) (some g) v = .ok r := by
  unfold scheduleAtBeat at h
  cases hsub : getSubdivisionDuration s (subdivision.getD "quarter") with
  | error msg => rw [hsub] at h; exact absurd h (by simp)
  | ok g =>
    rw [hsub] at h
    exact ⟨g, rfl, h⟩

theorem except_mapM_forall {α β ε : Type} (f : α → Except ε β) :
    ∀ (l : List α) (out : List β), l.mapM f = .ok out →
      ∀ b ∈ out, ∃ a ∈ l, f a = .ok b := by
  intro l
  induction l with
  | nil =>
    intro out h b hb
    simp only [List.mapM_nil] at h
    injection h with h
    subst h
    exact absurd hb (by simp)
  | cons a t ih =>
    intro out h b hb
    rw [List.mapM_cons] at h
    cases hfa : f a with
    | error msg => rw [hfa] at h; exact absurd h (by simp [Bind.bind, Except.bind])
    | ok b0 =>
      rw [hfa] at h
      cases hmt : t.mapM f with
      | error msg =>
        rw [hmt] at h
        exact absurd h (by simp [Bind.bind, Except.bind])
      | ok bs =>
        rw [hmt] at h
        simp only [Bind.bind, Except.bind, pure, Except.pure] at h
        injection h with h
        subst h
        rcases List.mem_cons.mp hb with hb0 | hbs
        · exact ⟨a, List.mem_cons_self a t, by rw [hfa, hb0]⟩
        · obtain ⟨a1, ha1, hfa1⟩ := ih bs hmt b hbs
          exact ⟨a1, List.mem_cons_of_mem a ha1, hfa1⟩

theorem quantize_ok (s : Scheduler) (t : ℚ) (subdivision : Option String)
    (q : ℚ) (h : quantize s t subdivision = .ok q) :
    ∃ g, getSubdivisionDuration s (subdivision.getD "quarter") = .ok g
      ∧ q = (jsRound (t / g) : ℚ) * g := by
  unfold quantize at h
  cases hsub : getSubdivisionDuration s (subdivision.getD "quarter") with
  | error msg => rw [hsub] at h; exact absurd h (by simp)
  | ok g =>
    rw [hsub] at h
    injection h with h
    exact ⟨g, rfl, h.symm⟩

theorem quantizeAll_ok (s : Scheduler) (subdivision : Option String)
    (r : Scheduler) (h : quantizeAll s subdivision = .ok r) :
    r.beatDurationMs = s.beatDurationMs
    ∧ ∃ l, r.scheduledNotes = sortByTime l
      ∧ ∀ ev ∈ l, ∃ ev0 ∈ s.scheduledNotes,
          ev.note = ev0.note ∧ ev.duration = ev0.duration
          ∧ ev.velocity = ev0.velocity
          ∧ ∃ g, getSubdivisionDuration s (subdivision.getD "quarter") = .ok g
              ∧ ev.time = (jsRound (ev0.time / g) : ℚ) * g := by
  unfold quantizeAll at h
  cases hm : s.scheduledNotes.mapM
      (fun ev => (quantize s ev.time subdivision).map fun t =>
        { ev with time := t }) with
  | error msg => rw [hm] at h; exact absurd h (by simp)
  | ok notes =>
    rw [hm] at h
    injection h with h
    subst h
    refine ⟨rfl, notes, rfl, ?_⟩
    intro ev hev
    obtain ⟨ev0, hev0, hfev0⟩ := except_mapM_forall _ _ _ hm ev hev
    cases hq : quantize s ev0.time subdivision with
    | error msg => rw [hq] at hfev0; exact absurd hfev0 (by simp [Except.map])
    | ok t1 =>
      rw [hq] at hfev0
      simp only [Except.map] at hfev0
      injection hfev0 with hfev0
      obtain ⟨g, hg, ht1⟩ := quantize_ok s ev0.time subdivision t1 hq
      subst hfev0
      exact ⟨ev0, hev0, rfl, rfl, rfl, g, hg, ht1⟩

theorem schedStep_sorted (s : Scheduler) (op : SchedOp)
    (h : List.Sorted timeLE s.scheduledNotes) :
    List.Sorted timeLE (schedStep s op).scheduledNotes := by
  cases op with
  | note n t d v =>
    cases heq : scheduleNote s n t d v with
    | error msg =>
      simp only [schedStep, heq]
      exact h
    | ok r =>
      simp only [schedStep, heq]
      rw [(scheduleNote_ok s n t d v r heq).1]
      exact sortByTime_sorted _
  | atBeat n b sub v =>
    cases heq : scheduleAtBeat s n b sub v with
    | error msg =>
      simp only [schedStep, heq]
      exact h
    | ok r =>
      simp only [schedStep, heq]
      obtain ⟨g, _, hnote⟩ := scheduleAtBeat_ok s n b sub v r heq
      rw [(scheduleNote_ok s n _ (some g) v r hnote).1]
      exact sortByTime_sorted _
  | quantAll sub =>
    cases heq : quantizeAll s sub with
    | error msg =>
      simp only [schedStep, heq]
      exact h
    | ok r =>
      simp only [schedStep, heq]
      obtain ⟨_, l, hl, _⟩ := quantizeAll_ok s sub r heq
      rw [hl]
      exact sortByTime_sorted _
  | clr =>
    simp only [schedStep, clearScheduler]
    exact List.sorted_nil

theorem runSched_sorted (ops : List SchedOp) :
    ∀ s : Scheduler, List.Sorted timeLE s.scheduledNotes →
      List.Sorted timeLE (runSched s ops).scheduledNotes := by
  induction ops with
  | nil => intro s h; exact h
  | cons op rest ih =>
    intro s h
    exact ih (schedStep s op) (schedStep_sorted s op h)

/-- C7: after any sequence of scheduling calls on a fresh scheduler, the
stored schedule is sorted non-decreasingly by `time`. -/
theorem scheduler_always_sorted (ops : List SchedOp) :
    List.Sorted timeLE (getSchedule (runSched initScheduler ops)) :=
  runSched_sorted ops initScheduler List.sorted_nil

/-- The basic per-event facts the scheduler validates on entry. -/
def evBasic (ev : SchedEvent) : Prop := 0 ≤ ev.note ∧ ev.note ≤ 127 ∧ 0 ≤ ev.time

/-- The per-event facts that hold only when callers pass well-formed
durations and velocities. -/
def evExtra (ev : SchedEvent) : Prop :=
  0 < ev.duration ∧ 0 ≤ ev.velocity ∧ ev.velocity ≤ 127

/-- A call whose explicit duration (if any) is positive and whose explicit
velocity (if any) lies in `[0, 127]`. -/
def goodOpArgs : SchedOp → Prop
  | .note _ _ d v =>
    (∀ x, d = some x → 0 < x) ∧ (∀ x, v = some x → 0 ≤ x ∧ x ≤ 127)
  | .atBeat _ _ _ v => ∀ x, v = some x → 0 ≤ x ∧ x ≤ 127
  | .quantAll _ => True
  | .clr => True

theorem schedStep_beatDuration (s : Scheduler) (op : SchedOp) :
    (schedStep s op).beatDurationMs = s.beatDurationMs := by
  cases op with
  | note n t d v =>
    cases heq : scheduleNote s n t d v with
    | error msg => simp only [schedStep, heq]
    | ok r =>
      simp only [schedStep, heq]
      exact (scheduleNote_ok s n t d v r heq).2.1
  | atBeat n b sub v =>
    cases heq : scheduleAtBeat s n b sub v with
    | error msg => simp only [schedStep, heq]
    | ok r =>
      simp only [schedStep, heq]
      obtain ⟨g, _, hnote⟩ := scheduleAtBeat_ok s n b sub v r heq
      exact (scheduleNote_ok s n _ (some g) v r hnote).2.1
  | quantAll sub =>
    cases heq : quantizeAll s sub with
    | error msg => simp only [schedStep, heq]
    | ok r =>
      simp only [schedStep, heq]
      exact (quantizeAll_ok s sub r heq).1
  | clr => simp only [schedStep, clearScheduler]

theorem schedStep_basic (s : Scheduler) (op : SchedOp)
    (hbd : 0 < s.beatDurationMs)
    (h : ∀ ev ∈ s.scheduledNotes, evBasic ev) :
    ∀ ev ∈ (schedStep s op).scheduledNotes, evBasic ev := by
  cases op with
  | note n t d v =>
    cases heq : scheduleNote s n t d v with
    | error msg =>
      simp only [schedStep, heq]
      exact h
    | ok r =>
      simp only [schedStep, heq]
      obtain ⟨hsched, _, hn0, hn1, ht0⟩ := scheduleNote_ok s n t d v r heq
      intro ev hev
      rw [hsched, mem_sortByTime, List.mem_append] at hev
      rcases hev with hev | hev
      · exact h ev hev
      · simp only [List.mem_cons, List.not_mem_nil, or_false] at hev
        subst hev
        exact ⟨hn0, hn1, ht0⟩
  | atBeat n b sub v =>
    cases heq : scheduleAtBeat s n b sub v with
    | error msg =>
      simp only [schedStep, heq]
      exact h
    | ok r =>
      simp only [schedStep, heq]
      obtain ⟨g, _, hnote⟩ := scheduleAtBeat_ok s n b sub v r heq
      obtain ⟨hsched, _, hn0, hn1, ht0⟩ := scheduleNote_ok s n _ (some g) v r hnote
      intro ev hev
      rw [hsched, mem_sortByTime, List.mem_append] at hev
      rcases hev with hev | hev
      · exact h ev hev
      · simp only [List.mem_cons, List.not_mem_nil, or_false] at hev
        subst hev
        exact ⟨hn0, hn1, ht0⟩
  | quantAll sub =>
    cases heq : quantizeAll s sub with
    | error msg =>
      simp only [schedStep, heq]
      exact h
    | ok r =>
      simp only [schedStep, heq]
      obtain ⟨_, l, hl, hmem⟩ := quantizeAll_ok s sub r heq
      intro ev hev
      rw [hl, mem_sortByTime] at hev
      obtain ⟨ev0, hev0, hnote, _, _, g, hg, htime⟩ := hmem ev hev
      obtain ⟨h0, h1, ht0⟩ := h ev0 hev0
      have hgpos : 0 < g := getSubdivisionDuration_ok_pos s _ g hbd hg
      refine ⟨hnote ▸ h0, hnote ▸ h1, ?_⟩
      rw [htime]
      have hz : (0 : ℤ) ≤ jsRound (ev0.time / g) :=
        jsRound_nonneg _ (div_nonneg ht0 hgpos.le)
      exact mul_nonneg (by exact_mod_cast hz) hgpos.le
  | clr =>
    intro ev hev
    exact absurd hev (by simp [schedStep, clearScheduler])

theorem schedStep_extra (s : Scheduler) (op : SchedOp)
    (hbd : 0 < s.beatDurationMs) (hop : goodOpArgs op)
    (h : ∀ ev ∈ s.scheduledNotes, evExtra ev) :
    ∀ ev ∈ (schedStep s op).scheduledNotes, evExtra ev := by
  cases op with
  | note n t d v =>
    cases heq : scheduleNote s n t d v with
    | error msg =>
      simp only [schedStep, heq]
      exact h
    | ok r =>
      simp only [schedStep, heq]
      obtain ⟨hsched, _, _, _, _⟩ := scheduleNote_ok s n t d v r heq
      intro ev hev
      rw [hsched, mem_sortByTime, List.mem_append] at hev
      rcases hev with hev | hev
      · exact h ev hev
      · simp only [List.mem_cons, List.not_mem_nil, or_false] at hev
        subst hev
        refine ⟨?_, ?_, ?_⟩
        · cases d with
          | none => exact hbd
          | some x => exact hop.1 x rfl
        · cases v with
          | none => norm_num
          | some x => exact (hop.2 x rfl).1
        · cases v with
          | none => norm_num
          | some x => exact (hop.2 x rfl).2
  | atBeat n b sub v =>
    cases heq : scheduleAtBeat s n b sub v with
    | error msg =>
      simp only [schedStep, heq]
      exact h
    | ok r =>
      simp only [schedStep, heq]
      obtain ⟨g, hg, hnote⟩ := scheduleAtBeat_ok s n b sub v r heq
      obtain ⟨hsched, _, _, _, _⟩ := scheduleNote_ok s n _ (some g) v r hnote
      have hgpos : 0 < g := getSubdivisionDuration_ok_pos s _ g hbd hg
      intro ev hev
      rw [hsched, mem_sortByTime, List.mem_append] at hev
      rcases hev with hev | hev
      · exact h ev hev
      · simp only [List.mem_cons, List.not_mem_nil, or_false] at hev
        subst hev
        refine ⟨hgpos, ?_, ?_⟩
        · cases v with
          | none => norm_num
          | some x => exact (hop x rfl).1
        · cases v with
          | none => norm_num
          | some x => exact (hop x rfl).2
  | quantAll sub =>
    cases heq : quantizeAll s sub with
    | error msg =>
      simp only [schedStep, heq]
      exact h
    | ok r =>
      simp only [schedStep, heq]
      obtain ⟨_, l, hl, hmem⟩ := quantizeAll_ok s sub r heq
      intro ev hev
      rw [hl, mem_sortByTime] at hev
      obtain ⟨ev0, hev0, _, hdur, hvel, _, _, _⟩ := hmem ev hev
      obtain ⟨h0, h1, h2⟩ := h ev0 hev0
      exact ⟨hdur ▸ h0, hvel ▸ h1, hvel ▸ h2⟩
  | clr =>
    intro ev hev
    exact absurd hev (by simp [schedStep, clearScheduler])

theorem runSched_basic (ops : List SchedOp) :
    ∀ s : Scheduler, 0 < s.beatDurationMs →
      (∀ ev ∈ s.scheduledNotes, evBasic ev) →
      ∀ ev ∈ (runSched s ops).scheduledNotes, evBasic ev := by
  induction ops with
  | nil => intro s _ h; exact h
  | cons op rest ih =>
    intro s hbd h
    exact ih (schedStep s op)
      (schedStep_beatDuration s op ▸ hbd)
      (schedStep_basic s op hbd h)

theorem runSched_extra (ops : List SchedOp) :
    ∀ s : Scheduler, 0 < s.beatDurationMs → (∀ op ∈ ops, goodOpArgs op) →
      (∀ ev ∈ s.scheduledNotes, evExtra ev) →
      ∀ ev ∈ (runSched s ops).scheduledNotes, evExtra ev := by
  induction ops with
  | nil => intro s _ _ h; exact h
  | cons op rest ih =>
    intro s hbd hgood h
    exact ih (schedStep s op)
      (schedStep_beatDuration s op ▸ hbd)
      (fun o ho => hgood o (List.mem_cons_of_mem op ho))
      (schedStep_extra s op hbd (hgood op (List.mem_cons_self op rest)) h)

/-- C8 (amended): after any sequence of scheduling calls on a fresh
scheduler, every stored event has its note in `[0, 127]` and a
non-negative time; and, provided every call's explicit duration is
positive and every explicit velocity lies in `[0, 127]`, every stored
event also has a positive duration and a velocity in `[0, 127]`.
(The source validates only note and time; duration and velocity are
stored as given.) -/
theorem scheduler_event_invariants (ops : List SchedOp) :
    (∀ ev ∈ (runSched initScheduler ops).scheduledNotes,
      0 ≤ ev.note ∧ ev.note ≤ 127 ∧ 0 ≤ ev.time)
    ∧ ((∀ op ∈ ops, goodOpArgs op) →
        ∀ ev ∈ (runSched initScheduler ops).scheduledNotes,
          0 < ev.duration ∧ 0 ≤ ev.velocity ∧ ev.velocity ≤ 127) := by
  constructor
  · exact runSched_basic ops initScheduler (by norm_num [initScheduler])
      (by simp [initScheduler])
  · intro hgood
    exact runSched_extra ops initScheduler (by norm_num [initScheduler]) hgood
      (by simp [initScheduler])

/-- C8 counterexample: `scheduleNote` does not validate duration or
velocity — `scheduleNote(60, 0, -5, 300)` succeeds and stores an event
with a negative duration (and an out-of-range velocity). -/
theorem scheduler_event_invariants_counterexample :
    ¬ (∀ ops : List SchedOp,
        ∀ ev ∈ (runSched initScheduler ops).scheduledNotes,
          0 ≤ ev.note ∧ ev.note ≤ 127 ∧ 0 ≤ ev.time ∧ 0 < ev.duration ∧
          0 ≤ ev.velocity ∧ ev.velocity ≤ 127) := by
  intro h
  have hev := h [SchedOp.note 60 0 (some (-5)) (some 300)]
    ⟨60, 0, -5, 300⟩ (by decide)
  exact absurd hev.2.2.2.1 (by norm_num)

/-! ## Bridge lemmas -/

/-- The host/port configuration that makes `connect()` fail. -/
def badConfig (b : OSCBridge) : Prop :=
  b.host = "" ∨ b.port = 0 ∨ b.port < 1 ∨ b.port > 65535

/-- The inter-call invariant of the bridge: the transient `CONNECTING`
state never persists past a call, and the bridge is in `ERROR` only when
its (immutable) target configuration is invalid. -/
def bridgeInv (b : OSCBridge) : Prop :=
  b.state ≠ BridgeState.CONNECTING ∧ (b.state = BridgeState.ERROR → badConfig b)

theorem bridgeStep_config (b : OSCBridge) (op : BridgeOp) :
    (bridgeStep b op).host = b.host ∧ (bridgeStep b op).port = b.port := by
  cases op with
  | connect =>
    simp only [bridgeStep, connect]
    split
    · exact ⟨rfl, rfl⟩
    · split
      · exact ⟨rfl, rfl⟩
      · exact ⟨rfl, rfl⟩
  | disconnect => exact ⟨rfl, rfl⟩
  | send param value now =>
    cases heq : send b param value now with
    | error msg => simp [bridgeStep, heq]
    | ok r =>
      simp only [bridgeStep, heq]
      unfold send at heq
      split at heq
      · injection heq with heq; subst heq; exact ⟨rfl, rfl⟩
      · split at heq
        · exact absurd heq (by simp)
        · injection heq with heq; subst heq; exact ⟨rfl, rfl⟩
  | sendBundle st now =>
    cases heq : sendBundle b st now with
    | error msg => simp [bridgeStep, heq]
    | ok r =>
      simp only [bridgeStep, heq]
      unfold sendBundle at heq
      split at heq
      · injection heq with heq; subst heq; exact ⟨rfl, rfl⟩
      · split at heq
        · exact absurd heq (by simp)
        · injection heq with heq; subst heq; exact ⟨rfl, rfl⟩
  | getStatus => exact ⟨rfl, rfl⟩
  | getRecent c => exact ⟨rfl, rfl⟩

/-- `send`/`sendBundle`/`getStatus`/`getRecentMessages` never change the
lifecycle state. -/
theorem bridgeStep_state_frame (b : OSCBridge) (op : BridgeOp)
    (hop : op ≠ BridgeOp.connect ∧ op ≠ BridgeOp.disconnect) :
    (bridgeStep b op).state = b.state := by
  cases op with
  | connect => exact absurd rfl hop.1
  | disconnect => exact absurd rfl hop.2
  | send param value now =>
    cases heq : send b param value now with
    | error msg => simp only [bridgeStep, heq]
    | ok r =>
      simp only [bridgeStep, heq]
      unfold send at heq
      split at heq
      · injection heq with heq; subst heq; rfl
      · split at heq
        · exact absurd heq (by simp)
        · injection heq with heq; subst heq; rfl
  | sendBundle st now =>
    cases heq : sendBundle b st now with
    | error msg => simp only [bridgeStep, heq]
    | ok r =>
      simp only [bridgeStep, heq]
      unfold sendBundle at heq
      split at heq
      · injection heq with heq; subst heq; rfl
      · split at heq
        · exact absurd heq (by simp)
        · injection heq with heq; subst heq; rfl
  | getStatus => rfl
  | getRecent c => rfl

theorem bridgeStep_inv (b : OSCBridge) (op : BridgeOp) (h : bridgeInv b) :
    bridgeInv (bridgeStep b op) := by
  have hconf := bridgeStep_config b op
  cases op with
  | connect =>
    simp only [bridgeStep, connect]
    split
    · exact h
    · split
      · rename_i hbad
        exact ⟨by simp, fun _ => hbad⟩
      · rename_i hgood
        exact ⟨by simp, by simp⟩
  | disconnect => exact ⟨by simp [bridgeStep, disconnect], by simp [bridgeStep, disconnect]⟩
  | send param value now =>
    have hst := bridgeStep_state_frame b (.send param value now) (by simp)
    exact ⟨hst ▸ h.1, fun he => by
      rcases h.2 (hst ▸ he) with h1 | h2
      · exact Or.inl (hconf.1 ▸ h1)
      · rcases h2 with h2 | h2 | h2
        · exact Or.inr (Or.inl (hconf.2 ▸ h2))
        · exact Or.inr (Or.inr (Or.inl (hconf.2 ▸ h2)))
        · exact Or.inr (Or.inr (Or.inr (hconf.2 ▸ h2)))⟩
  | sendBundle st now =>
    have hst := bridgeStep_state_frame b (.sendBundle st now) (by simp)
    exact ⟨hst ▸ h.1, fun he => by
      rcases h.2 (hst ▸ he) with h1 | h2
      · exact Or.inl (hconf.1 ▸ h1)
      · rcases h2 with h2 | h2 | h2
        · exact Or.inr (Or.inl (hconf.2 ▸ h2))
        · exact Or.inr (Or.inr (Or.inl (hconf.2 ▸ h2)))
        · exact Or.inr (Or.inr (Or.inr (hconf.2 ▸ h2)))⟩
  | getStatus => exact h
  | getRecent c => exact h

theorem runBridge_inv (ops : List BridgeOp) :
    ∀ b : OSCBridge, bridgeInv b → bridgeInv (runBridge b ops) := by
  induction ops with
  | nil => intro b h; exact h
  | cons op rest ih =>
    intro b h
    exact ih (bridgeStep b op) (bridgeStep_inv b op h)

/-- The bridge reached from a fresh construction by a sequence of calls. -/
def reachedBridge (host : Option String) (port : Option ℚ)
    (prefixArg : Option String) (ops : List BridgeOp) : OSCBridge :=
  runBridge (mkBridge host port prefixArg) ops

theorem mkBridge_inv (host : Option String) (port : Option ℚ)
    (prefixArg : Option String) : bridgeInv (mkBridge host port prefixArg) :=
  ⟨by simp [mkBridge], by simp [mkBridge]⟩

theorem reachedBridge_inv (host : Option String) (port : Option ℚ)
    (prefixArg : Option String) (ops : List BridgeOp) :
    bridgeInv (reachedBridge host port prefixArg ops) :=
  runBridge_inv ops _ (mkBridge_inv host port prefixArg)

/-- From `ERROR`, `connect()` finds the same invalid configuration and
lands in `ERROR` again. -/
theorem connect_from_error (b : OSCBridge) (h : bridgeInv b)
    (he : b.state = BridgeState.ERROR) :
    (bridgeStep b BridgeOp.connect).state = BridgeState.ERROR := by
  have hbad := h.2 he
  simp only [bridgeStep, connect]
  split
  · rename_i hc
    rw [hc] at he
    exact absurd he (by simp)
  · split
    · rfl
    · rename_i hgood
      exact absurd hbad hgood

/-- C9: the lifecycle of every reachable bridge moves only along the
allowed transitions: the transient `CONNECTING` never persists,
`disconnect` always lands in `DISCONNECTED`, from `ERROR` no call but
`disconnect` changes the state, `connect()` while `CONNECTED` is a
complete no-op returning `true`, `connect()` from `DISCONNECTED` lands in
`CONNECTED` or `ERROR`, and no other call changes the state at all. -/
theorem bridge_lifecycle (host : Option String) (port : Option ℚ)
    (prefixArg : Option String) (ops : List BridgeOp) :
    (reachedBridge host port prefixArg ops).state ≠ BridgeState.CONNECTING
    ∧ (bridgeStep (reachedBridge host port prefixArg ops)
        BridgeOp.disconnect).state = BridgeState.DISCONNECTED
    ∧ (∀ op, op ≠ BridgeOp.disconnect →
        (reachedBridge host port prefixArg ops).state = BridgeState.ERROR →
        (bridgeStep (reachedBridge host port prefixArg ops) op).state =
          BridgeState.ERROR)
    ∧ ((reachedBridge host port prefixArg ops).state = BridgeState.CONNECTED →
        connect (reachedBridge host port prefixArg ops) =
          (reachedBridge host port prefixArg ops, true))
    ∧ ((reachedBridge host port prefixArg ops).state = BridgeState.DISCONNECTED →
        (bridgeStep (reachedBridge host port prefixArg ops)
            BridgeOp.connect).state = BridgeState.CONNECTED
        ∨ (bridgeStep (reachedBridge host port prefixArg ops)
            BridgeOp.connect).state = BridgeState.ERROR)
    ∧ (∀ op, op ≠ BridgeOp.connect → op ≠ BridgeOp.disconnect →
        (bridgeStep (reachedBridge host port prefixArg ops) op).state =
          (reachedBridge host port prefixArg ops).state) := by
  have hinv := reachedBridge_inv host port prefixArg ops
  set b := reachedBridge host port prefixArg ops with hb
  refine ⟨hinv.1, rfl, ?_, ?_, ?_, ?_⟩
  · intro op hop he
    cases op with
    | connect => exact connect_from_error b hinv he
    | disconnect => exact absurd rfl hop
    | send param value now =>
      rw [bridgeStep_state_frame b _ (by simp)]
      exact he
    | sendBundle st now =>
      rw [bridgeStep_state_frame b _ (by simp)]
      exact he
    | getStatus =>
      rw [bridgeStep_state_frame b _ (by simp)]
      exact he
    | getRecent c =>
      rw [bridgeStep_state_frame b _ (by simp)]
      exact he
  · intro hc
    unfold connect
    rw [if_pos hc]
  · intro hd
    simp only [bridgeStep, connect]
    rw [if_neg (by rw [hd]; simp)]
    split
    · exact Or.inr rfl
    · exact Or.inl rfl
  · intro op h1 h2
    exact bridgeStep_state_frame b op ⟨h1, h2⟩

/-! ## Consensus lemmas -/

/-- C1 (code-bug evidence): `typeof null === 'object'` in JavaScript, so
`recordInput('user1', null)` passes the guard and records an entry, and
the following `calculateConsensus` throws (reads a property of `null`)
instead of returning a consensus — the malformed payload is neither
ignored nor harmless. -/
theorem recordInput_null_values_breaks_consensus :
    getInputCount (recordInput defaultEngine "user1" JVal.jnull none 1000) = 1
    ∧ calculateConsensus (recordInput defaultEngine "user1" JVal.jnull none 1000)
        1000 = .error () := by
  have hrec : recordInput defaultEngine "user1" JVal.jnull none 1000 =
      { defaultEngine with inputs := [("user1", ⟨1000, JVal.jnull⟩)] } := by
    unfold recordInput
    rw [if_neg (by simp [typeofIsObject])]
    simp [setInput, tsOrNow, defaultEngine]
  rw [hrec]
  refine ⟨rfl, ?_⟩
  unfold calculateConsensus
  rw [if_neg (by simp)]
  have hloop :
      consensusLoop { defaultEngine with inputs := [("user1", ⟨1000, JVal.jnull⟩)] }
        1000 ({ defaultEngine with
          inputs := [("user1", ⟨1000, JVal.jnull⟩)] }).parameters [] =
        .error () := by
    show consensusLoop _ 1000 defaultEngine.parameters [] = .error ()
    simp [consensusLoop, paramAccum, defaultEngine, defaultParameters]
  rw [hloop]

theorem applyLoop_fields (entries : List (String × ℝ)) :
    ∀ e : ConsensusEngine,
      (applyLoop e entries).overridesActive = e.overridesActive
      ∧ (applyLoop e entries).overrides = e.overrides
      ∧ (applyLoop e entries).consensusSmoothing = e.consensusSmoothing := by
  induction entries with
  | nil => intro e; exact ⟨rfl, rfl, rfl⟩
  | cons pr rest ih =>
    intro e
    obtain ⟨param, value⟩ := pr
    simp only [applyLoop]
    split
    · exact ih e
    · exact ih _

theorem applyLoop_skip (p : String) (v : ℝ) (entries : List (String × ℝ)) :
    ∀ e : ConsensusEngine, e.overridesActive = true →
      e.overrides p = OvVal.val v →
      (applyLoop e entries).state p = e.state p := by
  induction entries with
  | nil => intro e _ _; rfl
  | cons pr rest ih =>
    intro e hact hov
    obtain ⟨param, value⟩ := pr
    simp only [applyLoop]
    split
    · exact ih e hact hov
    · rename_i hcond
      have hne : ¬ p = param := by
        intro hpq
        rw [hpq] at hov
        exact hcond ⟨hact, by rw [hov]; rfl⟩
      refine (ih (stateUpdate e param value) hact hov).trans ?_
      show (if p = param then _ else e.state p) = e.state p
      exact if_neg hne

theorem applyLoop_absent (p : String) (entries : List (String × ℝ)) :
    ∀ e : ConsensusEngine, p ∉ entries.map Prod.fst →
      (applyLoop e entries).state p = e.state p := by
  induction entries with
  | nil => intro e _; rfl
  | cons pr rest ih =>
    intro e hp
    obtain ⟨param, value⟩ := pr
    simp only [List.map_cons, List.mem_cons, not_or] at hp
    simp only [applyLoop]
    split
    · exact ih e hp.2
    · refine (ih (stateUpdate e param value) hp.2).trans ?_
      show (if p = param then _ else e.state p) = e.state p
      exact if_neg hp.1

theorem applyLoop_update (p : String) (cv : ℝ) (entries : List (String × ℝ)) :
    ∀ e : ConsensusEngine, (entries.map Prod.fst).Nodup → (p, cv) ∈ entries →
      ¬ (e.overridesActive = true ∧ (e.overrides p).isNull = false) →
      (applyLoop e entries).state p =
        e.state p + (cv - e.state p) * e.consensusSmoothing := by
  induction entries with
  | nil => intro e _ habs _; exact absurd habs (by simp)
  | cons pr rest ih =>
    intro e hnodup hmem hskip
    obtain ⟨param, value⟩ := pr
    simp only [List.map_cons, List.nodup_cons] at hnodup
    rcases List.mem_cons.mp hmem with hhead | htail
    · obtain ⟨hp, hv⟩ := Prod.mk.inj hhead
      subst hp
      subst hv
      simp only [applyLoop]
      split
      · rename_i hcond
        exact absurd hcond hskip
      · rw [applyLoop_absent p rest _ hnodup.1]
        exact if_pos rfl
    · have hne : ¬ p = param := by
        intro hpq
        subst hpq
        exact hnodup.1 (List.mem_map_of_mem Prod.fst htail)
      simp only [applyLoop]
      split
      · exact ih e hnodup.2 htail hskip
      · refine (ih (stateUpdate e param value) hnodup.2 htail hskip).trans ?_
        show (if p = param then _ else e.state p) +
            (cv - (if p = param then _ else e.state p)) * e.consensusSmoothing = _
        rw [if_neg hne]

/-- C4: an active non-null override makes `applyConsensus` leave that
parameter's state untouched, while a parameter with no override (or with
the override set inactive) moves by the smoothing fraction of its distance
to the consensus value; in particular after `setOverride('mood', 0.2)` the
mood state is exactly 0.2 after any `applyConsensus`. -/
theorem applyConsensus_override_precedence (e : ConsensusEngine)
    (c : List (String × ℝ)) :
    (∀ p v, e.overridesActive = true → e.overrides p = OvVal.val v →
      (applyConsensus e (some c)).state p = e.state p)
    ∧ (∀ p cv, (c.map Prod.fst).Nodup → (p, cv) ∈ c →
        (e.overridesActive = false ∨ e.overrides p = OvVal.null) →
        (applyConsensus e (some c)).state p =
          e.state p + (cv - e.state p) * e.consensusSmoothing)
    ∧ (∀ copt, "mood" ∈ e.parameters →
        (applyConsensus (setOverride e "mood" (some 0.2)) copt).state "mood"
          = 0.2) := by
  refine ⟨?_, ?_, ?_⟩
  · intro p v hact hov
    exact applyLoop_skip p v c e hact hov
  · intro p cv hnodup hmem hno
    apply applyLoop_update p cv c e hnodup hmem
    intro hcontra
    rcases hno with h1 | h2
    · rw [h1] at hcontra
      exact absurd hcontra.1 (by simp)
    · rw [h2] at hcontra
      exact absurd hcontra.2 (by simp [OvVal.isNull])
  · intro copt hp
    have hact : (setOverride e "mood" (some 0.2)).overridesActive = true := by
      simp [setOverride, hp]
    have hov : (setOverride e "mood" (some 0.2)).overrides "mood" =
        OvVal.val 0.2 := by
      simp [setOverride, hp]
    have hst : (setOverride e "mood" (some 0.2)).state "mood" = 0.2 := by
      simp [setOverride, hp]
    cases copt with
    | none => exact hst
    | some c2 =>
      show (applyLoop _ c2).state "mood" = 0.2
      rw [applyLoop_skip "mood" 0.2 c2 _ hact hov]
      exact hst

theorem paramAccum_spec (e : ConsensusEngine) (now : ℝ) (p : String) :
    ∀ (l : List InputEntry) (acc : ℝ × ℝ),
      (∀ i ∈ l, i.values.isMapping = true) →
      paramAccum e now p l acc =
        .ok (acc.1 + ((specContribsL e now p l).map fun c => c.1 * c.2).sum,
             acc.2 + ((specContribsL e now p l).map Prod.snd).sum) := by
  intro l
  induction l with
  | nil => intro acc _; simp [paramAccum, specContribsL]
  | cons input rest ih =>
    intro acc hwf
    have hrest : ∀ i ∈ rest, i.values.isMapping = true :=
      fun i hi => hwf i (List.mem_cons_of_mem _ hi)
    have hm := hwf input (List.mem_cons_self _ _)
    cases hval : input.values with
    | jnull => rw [hval] at hm; exact absurd hm (by simp [JVal.isMapping])
    | jundef => rw [hval] at hm; exact absurd hm (by simp [JVal.isMapping])
    | jnum x => rw [hval] at hm; exact absurd hm (by simp [JVal.isMapping])
    | jstr s0 => rw [hval] at hm; exact absurd hm (by simp [JVal.isMapping])
    | jobj m =>
      cases hlk : m.lookup p with
      | none =>
        have hcontribs : specContribsL e now p (input :: rest) =
            specContribsL e now p rest := by
          simp [specContribsL, List.filterMap_cons, propAt, hval, hlk]
        rw [hcontribs]
        simp only [paramAccum, hval, hlk]
        exact ih acc hrest
      | some v =>
        by_cases hage : now - input.timestamp > e.inputDecayWindowMs
        · have hcontribs : specContribsL e now p (input :: rest) =
              specContribsL e now p rest := by
            simp only [specContribsL, List.filterMap_cons, propAt, hval, hlk]
            rw [if_neg (not_le.mpr hage)]
          rw [hcontribs]
          simp only [paramAccum, hval, hlk]
          rw [if_pos hage]
          exact ih acc hrest
        · have hcontribs : specContribsL e now p (input :: rest) =
              (v, Real.exp (-((now - input.timestamp) / e.inputDecayWindowMs)
                    * e.betaTemporal)
                  * max 0.1 (1 - |v - e.state p| * e.gammaConsensus))
                :: specContribsL e now p rest := by
            simp only [specContribsL, List.filterMap_cons, propAt, hval, hlk]
            rw [if_pos (not_lt.mp hage)]
          rw [hcontribs]
          simp only [paramAccum, hval, hlk]
          rw [if_neg hage]
          rw [ih _ hrest]
          simp only [List.map_cons, List.sum_cons]
          rw [neg_div]
          refine congrArg Except.ok (Prod.ext ?_ ?_) <;> dsimp only <;> ring

theorem specContribsL_weight_pos (e : ConsensusEngine) (now : ℝ) (p : String)
    (l : List InputEntry) : ∀ c ∈ specContribsL e now p l, 0 < c.2 := by
  intro c hc
  rw [specContribsL, List.mem_filterMap] at hc
  obtain ⟨input, _, hf⟩ := hc
  cases hpa : propAt input.values p with
  | none => rw [hpa] at hf; exact absurd hf (by simp)
  | some v =>
    rw [hpa] at hf
    dsimp only at hf
    split at hf
    · injection hf with hf
      rw [← hf]
      exact mul_pos (Real.exp_pos _)
        (lt_of_lt_of_le (by norm_num) (le_max_left 0.1 _))
    · exact absurd hf (by simp)

theorem specTotalWeight_pos_iff (e : ConsensusEngine) (now : ℝ) (p : String) :
    0 < specTotalWeight e now p ↔ specContribs e now p ≠ [] := by
  unfold specTotalWeight
  constructor
  · intro h hnil
    rw [hnil] at h
    simp at h
  · intro hne
    apply List.sum_pos
    · intro x hx
      rw [List.mem_map] at hx
      obtain ⟨c, hc, rfl⟩ := hx
      exact specContribsL_weight_pos e now p _ c hc
    · simpa using hne

theorem consensusLoop_spec (e : ConsensusEngine) (now : ℝ)
    (hwf : ∀ i ∈ e.inputs.map Prod.snd, i.values.isMapping = true) :
    ∀ (ps : List String) (acc : List (String × ℝ)),
      consensusLoop e now ps acc =
        .ok (acc ++ ps.filterMap fun p =>
          if 0 < specTotalWeight e now p then
            some (p, specWeightedSum e now p / specTotalWeight e now p)
          else none) := by
  intro ps
  induction ps with
  | nil => intro acc; simp [consensusLoop]
  | cons p rest ih =>
    intro acc
    have hacc := paramAccum_spec e now p (e.inputs.map Prod.snd) (0, 0) hwf
    simp only [zero_add] at hacc
    simp only [consensusLoop, hacc]
    have hsum : ((specContribsL e now p (e.inputs.map Prod.snd)).map
        fun c => c.1 * c.2).sum = specWeightedSum e now p := rfl
    have htot : ((specContribsL e now p (e.inputs.map Prod.snd)).map
        Prod.snd).sum = specTotalWeight e now p := rfl
    rw [List.filterMap_cons, hsum, htot]
    by_cases hT : 0 < specTotalWeight e now p
    · simp only [hT, if_true]
      rw [ih (acc ++ [(p, specWeightedSum e now p / specTotalWeight e now p)])]
      simp [List.append_assoc]
    · simp only [hT, if_false]
      rw [ih acc]

theorem builtList_lookup_pos (e : ConsensusEngine) (now : ℝ) (p : String) :
    ∀ ps : List String, p ∈ ps → 0 < specTotalWeight e now p →
      (ps.filterMap fun q =>
        if 0 < specTotalWeight e now q then
          some (q, specWeightedSum e now q / specTotalWeight e now q)
        else none).lookup p =
        some (specWeightedSum e now p / specTotalWeight e now p) := by
  intro ps
  induction ps with
  | nil => intro h _; exact absurd h (by simp)
  | cons q rest ih =>
    intro hmem hT
    rw [List.filterMap_cons]
    by_cases hq : 0 < specTotalWeight e now q
    · rw [if_pos hq]
      by_cases hpq : p = q
      · subst hpq
        simp [List.lookup]
      · have hbeq : (p == q) = false := beq_eq_false_iff_ne.mpr hpq
        have hp2 : p ∈ rest := by
          rcases List.mem_cons.mp hmem with h | h
          · exact absurd h hpq
          · exact h
        simp only [List.lookup, hbeq]
        exact ih hp2 hT
    · rw [if_neg hq]
      have hp : p ∈ rest := by
        rcases List.mem_cons.mp hmem with h | h
        · subst h; exact absurd hT hq
        · exact h
      exact ih hp hT

theorem builtList_lookup_neg (e : ConsensusEngine) (now : ℝ) (p : String) :
    ∀ ps : List String, ¬ 0 < specTotalWeight e now p →
      (ps.filterMap fun q =>
        if 0 < specTotalWeight e now q then
          some (q, specWeightedSum e now q / specTotalWeight e now q)
        else none).lookup p = none := by
  intro ps
  induction ps with
  | nil => intro _; rfl
  | cons q rest ih =>
    intro hT
    rw [List.filterMap_cons]
    by_cases hq : 0 < specTotalWeight e now q
    · rw [if_pos hq]
      have hpq : ¬ p = q := by
        intro h
        subst h
        exact hT hq
      have hbeq : (p == q) = false := beq_eq_false_iff_ne.mpr hpq
      simp only [List.lookup, hbeq]
      exact ih hT
    · rw [if_neg hq]
      exact ih hT

theorem builtList_eq_nil_iff (e : ConsensusEngine) (now : ℝ) (ps : List String) :
    (ps.filterMap fun q =>
      if 0 < specTotalWeight e now q then
        some (q, specWeightedSum e now q / specTotalWeight e now q)
      else none) = []
    ↔ ∀ p ∈ ps, ¬ 0 < specTotalWeight e now p := by
  rw [List.filterMap_eq_nil]
  constructor
  · intro h p hp hT
    have := h p hp
    rw [if_pos hT] at this
    exact absurd this (by simp)
  · intro h p hp
    rw [if_neg (h p hp)]

/-- C2: for a non-empty input table, a recognized parameter with positive
total weight gets, as its consensus value, exactly the weighted mean
`Σ(value·weight) / Σweight` over the qualifying inputs (those that define
the parameter and are at most a decay window old), with the weight
`exp(-(age/window)·β) · max(0.1, 1 − |value − state|·γ)`. -/
theorem calculateConsensus_weighted_mean (e : ConsensusEngine) (now : ℝ)
    (p : String) (hne : e.inputs ≠ []) (hp : p ∈ e.parameters)
    (hwf : wfInputs e) (hT : 0 < specTotalWeight e now p) :
    ∃ m, calculateConsensus e now = .ok (some m)
      ∧ m.lookup p = some (specWeightedSum e now p / specTotalWeight e now p) := by
  have hwf2 : ∀ i ∈ e.inputs.map Prod.snd, i.values.isMapping = true := by
    intro i hi
    rw [List.mem_map] at hi
    obtain ⟨pr, hpr, rfl⟩ := hi
    exact hwf pr hpr
  unfold calculateConsensus
  rw [if_neg (by simpa [List.length_eq_zero] using hne)]
  rw [consensusLoop_spec e now hwf2 e.parameters []]
  simp only [List.nil_append]
  rw [if_neg ?hbuilt]
  case hbuilt =>
    intro hnil
    exact ((builtList_eq_nil_iff e now e.parameters).mp hnil) p hp hT
  exact ⟨_, rfl, builtList_lookup_pos e now p e.parameters hp hT⟩

/-- C3: with well-formed inputs `calculateConsensus` never throws; it
returns `null` exactly when the input table is empty or no recognized
parameter has a qualifying input; and in a non-null result a recognized
parameter is present exactly when it has a qualifying input. -/
theorem calculateConsensus_nullability (e : ConsensusEngine) (now : ℝ)
    (hwf : wfInputs e) :
    (∃ r, calculateConsensus e now = .ok r)
    ∧ (calculateConsensus e now = .ok none ↔
        (e.inputs = [] ∨ ∀ p ∈ e.parameters, specContribs e now p = []))
    ∧ (∀ m, calculateConsensus e now = .ok (some m) →
        ∀ p ∈ e.parameters, ((m.lookup p).isSome ↔ specContribs e now p ≠ [])) := by
  have hwf2 : ∀ i ∈ e.inputs.map Prod.snd, i.values.isMapping = true := by
    intro i hi
    rw [List.mem_map] at hi
    obtain ⟨pr, hpr, rfl⟩ := hi
    exact hwf pr hpr
  by_cases hnil : e.inputs = []
  · have hcalc : calculateConsensus e now = .ok none := by
      unfold calculateConsensus
      rw [if_pos (by simp [hnil])]
    refine ⟨⟨none, hcalc⟩, ⟨fun _ => Or.inl hnil, fun _ => hcalc⟩, ?_⟩
    intro m hm
    rw [hcalc] at hm
    injection hm with hm
    exact absurd hm (by simp)
  · have hcalc : calculateConsensus e now =
        .ok (if (e.parameters.filterMap fun q =>
            if 0 < specTotalWeight e now q then
              some (q, specWeightedSum e now q / specTotalWeight e now q)
            else none) = [] then none
          else some (e.parameters.filterMap fun q =>
            if 0 < specTotalWeight e now q then
              some (q, specWeightedSum e now q / specTotalWeight e now q)
            else none)) := by
      unfold calculateConsensus
      rw [if_neg (by simpa [List.length_eq_zero] using hnil)]
      rw [consensusLoop_spec e now hwf2 e.parameters []]
      simp only [List.nil_append]
    have hcontrib_iff : ∀ p, (¬ 0 < specTotalWeight e now p) ↔
        specContribs e now p = [] := by
      intro p
      rw [specTotalWeight_pos_iff]
      exact not_not
    by_cases hb : (e.parameters.filterMap fun q =>
        if 0 < specTotalWeight e now q then
          some (q, specWeightedSum e now q / specTotalWeight e now q)
        else none) = []
    · rw [hb, if_pos rfl] at hcalc
      refine ⟨⟨none, hcalc⟩, ⟨?_, fun _ => hcalc⟩, ?_⟩
      · intro _
        refine Or.inr ?_
        intro p hp
        exact (hcontrib_iff p).mp (((builtList_eq_nil_iff e now e.parameters).mp hb) p hp)
      · intro m hm
        rw [hcalc] at hm
        injection hm with hm
        exact absurd hm (by simp)
    · rw [if_neg hb] at hcalc
      refine ⟨⟨_, hcalc⟩, ⟨?_, ?_⟩, ?_⟩
      · intro h
        rw [hcalc] at h
        injection h with h
        exact absurd h (by simp)
      · intro h
        rcases h with h | h
        · exact absurd h hnil
        · exfalso
          apply hb
          rw [builtList_eq_nil_iff]
          intro p hp
          rw [hcontrib_iff p]
          exact h p hp
      · intro m hm
        rw [hcalc] at hm
        injection hm with hm
        injection hm with hm
        subst hm
        intro p hp
        by_cases hT : 0 < specTotalWeight e now p
        · rw [builtList_lookup_pos e now p e.parameters hp hT]
          exact iff_of_true (by simp) ((specTotalWeight_pos_iff e now p).mp hT)
        · rw [builtList_lookup_neg e now p e.parameters hT]
          exact iff_of_false (by simp) (not_not_intro ((hcontrib_iff p).mp hT))

/-- C3 witness: with zero inputs the consensus is `null`. -/
theorem calculateConsensus_nullability_witness :
    calculateConsensus defaultEngine 0 = .ok none := by
  have h := calculateConsensus_nullability defaultEngine 0
    (by intro pr hpr; exact absurd hpr (by simp [defaultEngine]))
  exact (h.2.1).mpr (Or.inl (by simp [defaultEngine]))

/-- The engine of the C2 witness: one fresh input defining `mood` at 0.5. -/
noncomputable def consensusWitnessEngine : ConsensusEngine :=
  recordInput defaultEngine "user1" (JVal.jobj [("mood", 0.5)]) (some 1000) 1000

theorem consensusWitnessEngine_eq : consensusWitnessEngine =
    { defaultEngine with
      inputs := [("user1", ⟨1000, JVal.jobj [("mood", 0.5)]⟩)] } := by
  unfold consensusWitnessEngine recordInput
  rw [if_neg (by simp [typeofIsObject])]
  simp [setInput, tsOrNow, defaultEngine]

/-- C2 witness: one fresh `mood = 0.5` input on a fresh engine. -/
theorem calculateConsensus_weighted_mean_witness :
    ∃ m, calculateConsensus consensusWitnessEngine 1000 = .ok (some m)
      ∧ m.lookup "mood" = some (specWeightedSum consensusWitnessEngine 1000 "mood"
          / specTotalWeight consensusWitnessEngine 1000 "mood") := by
  apply calculateConsensus_weighted_mean
  · rw [consensusWitnessEngine_eq]
    simp
  · rw [consensusWitnessEngine_eq]
    simp [defaultEngine, defaultParameters]
  · rw [consensusWitnessEngine_eq]
    intro pr hpr
    simp only [List.mem_singleton] at hpr
    subst hpr
    rfl
  · rw [consensusWitnessEngine_eq]
    unfold specTotalWeight specContribs specContribsL
    norm_num [List.filterMap_cons, propAt, List.lookup, defaultEngine]

end GenMusic
